import Mathlib

/-!
Verification of the NIF engine (src/nif.py).

The Python class `Nif` keeps its digits in a plain list `_nif`; we embed a
digit list as `List Nat` and each method as a Lean function.  Python strings
of digit characters are embedded as lists of character codes (`List Nat`),
so that `str(self).startswith(...)` becomes `List.isPrefixOf` on code lists.
Random draws `randrange(n)` are embedded by consuming a stream of arbitrary
naturals reduced modulo `n`: every possible outcome of `randrange(n)` is
`d % n` for some natural `d`, and conversely.
-/

namespace Nif

/-- Error raised by the guarded branches of the Python code. -/
inductive PyError where
  | indexError
  deriving DecidableEq, Repr

/-- Embeds `Nif._BASE_LENGTH = 8` (src/nif.py line 33). -/
def baseLength : Nat := 8

/-- Embeds `Nif._COMBINATIONS` (src/nif.py lines 13-26): the catalogue of
valid starting combinations, in source order. -/
def combinations : List (List Nat) :=
  [[1], [2], [5], [6], [7, 0], [7, 1], [7, 7], [7, 9], [8], [9, 0], [9, 1], [9, 8], [9, 9]]

/-- Embeds Python `enumerate` starting at index `i`. -/
def enumerate : Nat → List Nat → List (Nat × Nat)
  | _, [] => []
  | i, a :: l => (i, a) :: enumerate (i + 1) l

/-- Embeds `Nif._eval_sum(elements)` (src/nif.py lines 145-149):
fold `_ruler = lambda x,y: x + ((9 - y[0]) * int(y[1]))` over
`enumerate(elements[:8])`, reduce modulo 11, then map to the check digit. -/
def evalSum (elements : List Nat) : Nat :=
  let s := ((enumerate 0 (elements.take baseLength)).foldl
      (fun x y => x + (9 - y.1) * y.2) 0) % 11
  if s < 2 then 0 else 11 - s

/-- Decimal representation of a natural number as character codes, with a
structural fuel argument (the fuel is always sufficient at the call site in
`pyStr`).  Embeds Python `str` on a nonnegative int. -/
def pyStrCore : Nat → Nat → List Nat
  | 0, _ => []
  | fuel + 1, n => if n < 10 then [48 + n] else pyStrCore fuel (n / 10) ++ [48 + n % 10]

/-- Embeds Python `str(n)` for a nonnegative int `n`, as character codes. -/
def pyStr (n : Nat) : List Nat := pyStrCore (n + 1) n

/-- Embeds `str(self)` = `''.join(map(str, self._nif))` (src/nif.py line 87). -/
def toStr (nif : List Nat) : List Nat := (nif.map pyStr).flatten

/-- Embeds Python `int(c)` on a single digit character code. -/
def charDigit (c : Nat) : Nat := c - 48

/-- Embeds the string branch of `Nif.__init__` without fill
(src/nif.py line 51): `self._nif = list(map(int, list(num)))`. -/
def fromString (s : List Nat) : List Nat := s.map charDigit

/-- Embeds `Nif.is_valid` (src/nif.py lines 115-119), parameterized by the
catalogue list read from `Nif._COMBINATIONS` at call time:
rule 1 is the length check, rule 2 folds
`validator = lambda x,y: x or str(self).startswith(''.join(map(str,y)))`
over the catalogue starting from `False`, rule 3 compares the stored sum
digit with `eval_sum` of the base. -/
def isValid (nif : List Nat) (combs : List (List Nat)) : Bool :=
  nif.length == baseLength + 1
    && combs.foldl (fun x y => x || (toStr y).isPrefixOf (toStr nif)) false
    && (nif.getD baseLength 0 == evalSum (nif.take baseLength))

/-- Resolves a Python index for a list of length `len` in a slice, clamping
to `[0, len]` (negative indices count from the end). -/
def resolveIdx (len : Nat) (i : Int) : Nat :=
  if i < 0 then (i + len).toNat else min i.toNat len

/-- Embeds Python slice assignment `l[start:stop] = items` for step 1;
`stop = none` means the slice runs to the end of the list. -/
def pySetSlice (l : List Nat) (start : Int) (stop : Option Int) (items : List Nat) :
    List Nat :=
  let s := resolveIdx l.length start
  let e := match stop with
    | none => l.length
    | some st => resolveIdx l.length st
  l.take s ++ items ++ l.drop (max s e)

/-- Embeds Python single-element list assignment `l[i] = v`, which raises
IndexError unless `-len <= i < len`. -/
def pyListSet (l : List Nat) (i : Int) (v : Nat) : Option (List Nat) :=
  if -(l.length : Int) ≤ i ∧ i < l.length then
    some (l.set (if i < 0 then (i + l.length).toNat else i.toNat) v)
  else none

/-- Embeds Python list read `l[i]` with negative-index wrapping. -/
def pyListGet (l : List Nat) (i : Int) : Option Nat :=
  if -(l.length : Int) ≤ i ∧ i < l.length then
    some (l.getD (if i < 0 then (i + l.length).toNat else i.toNat) 0)
  else none

/-- Embeds `Nif.fix_sum` (src/nif.py lines 132-134):
`self.set_sum_digit(self.eval_sum())`, i.e. the slice assignment
`self._nif[8:] = [Nif._eval_sum(self._nif[:8])]`. -/
def fixSum (l : List Nat) : List Nat :=
  pySetSlice l (baseLength : Int) none [evalSum (l.take baseLength)]

/-- Embeds the slice branch of `Nif.__setitem__` (src/nif.py lines 72-80):
the assignment is guarded by `-8 < index.start < 8`; on success the slice is
assigned and `fix_sum` runs, otherwise IndexError is raised. -/
def setItemSlice (l : List Nat) (start : Int) (stop : Option Int) (items : List Nat) :
    Except PyError (List Nat) :=
  if -(baseLength : Int) < start ∧ start < (baseLength : Int) then
    Except.ok (fixSum (pySetSlice l start stop items))
  else Except.error PyError.indexError

/-- Embeds the int branch of `Nif.__setitem__` (src/nif.py lines 82-84):
`self._nif[index] = item` (raising IndexError when the index is out of the
list bounds) followed by `self.fix_sum()`. -/
def setItemInt (l : List Nat) (i : Int) (v : Nat) : Except PyError (List Nat) :=
  match pyListSet l i v with
  | some l1 => Except.ok (fixSum l1)
  | none => Except.error PyError.indexError

/-- True exactly on the `ok` outcome of a digit assignment. -/
def isOkB : Except PyError (List Nat) → Bool
  | Except.ok _ => true
  | Except.error _ => false

/-- Embeds the list of draws `[rand(9) for _ in range(m)]` (src/nif.py
lines 55 and 104): `rand` is `randrange`, so `rand(9)` is an arbitrary
natural reduced modulo 9.  `s` is the stream of raw random values. -/
def padDraws (s : List Nat) (m : Nat) : List Nat :=
  (List.range m).map (fun i => s.getD i 0 % 9)

/-- Embeds the fill branch of `Nif.__init__` (src/nif.py lines 52-57) on an
already parsed digit list `ds`: pad the base with `rand(9)` draws when fewer
than 8 digits were supplied, then install `eval_sum` as the 9th digit when
fewer than 9 digits were supplied.  Both slice assignments are the Python
ones. -/
def fillFrom (ds : List Nat) (s : List Nat) : List Nat :=
  let length := ds.length
  let l1 := if length < 8 then
      pySetSlice ds (length : Int) none (padDraws s (8 - length))
    else ds
  if length < 9 then pySetSlice l1 (baseLength : Int) none [evalSum (l1.take baseLength)]
  else l1

/-- Embeds `Nif._fair_combinations` (src/nif.py lines 36-40): each length-1
combination is expanded into 10 fresh one-element lists, each length-2
combination is kept (as the same list object as in `_COMBINATIONS`; that
aliasing is tracked by `catalogueOf` below). -/
def fairCombinations : List (List Nat) :=
  (combinations.map
    (fun c => if c.length == 1 then List.replicate 10 [c.getD 0 0] else [c])).flatten

/-- The state of one generating instance: the lists held by its cached
`_balanced`.  Slots 40-43 and 54-57 of `_balanced` are the very list objects
stored in `Nif._COMBINATIONS` (positions 4-7 and 9-12), while every other
slot is a fresh copy of a one-digit combination; so the class catalogue, as
read by `is_valid` after mutations of the state, is this view. -/
def catalogueOf (bal : List (List Nat)) : List (List Nat) :=
  [[1], [2], [5], [6],
   bal.getD 40 [], bal.getD 41 [], bal.getD 42 [], bal.getD 43 [],
   [8],
   bal.getD 54 [], bal.getD 55 [], bal.getD 56 [], bal.getD 57 []]

/-- Embeds one call of `Nif.generate` (src/nif.py lines 98-107) on the
balanced state `bal` with raw random stream `s`: pick
`_nif = comb[rand(len(comb))]` (a reference into the state), extend it in
place with `_nif[lnif:] = [rand(9) ...]` and
`_nif[8:] = [Nif._eval_sum(_nif)]`, store a copy in the instance.  Returns
the updated state, the digits of the generated NIF, and the rest of the
stream. -/
def generateStep (bal : List (List Nat)) (s : List Nat) :
    List (List Nat) × List Nat × List Nat :=
  let k := s.headD 0 % bal.length
  let s1 := s.tail
  let nif0 := bal.getD k []
  let m := baseLength - nif0.length
  let ds := padDraws s1 m
  let nif1 := pySetSlice nif0 (nif0.length : Int) none ds
  let nif2 := pySetSlice nif1 (baseLength : Int) none [evalSum nif1]
  (bal.set k nif2, nif2, s1.drop m)

/-- Iterates `generateStep` `n` times (repeated `generate()` calls on one
instance whose `_balanced` state starts as `bal`); returns the final state,
the digits returned by the last call, and the remaining stream. -/
def generateN : Nat → List (List Nat) → List Nat → List (List Nat) × List Nat × List Nat
  | 0, bal, s => (bal, [], s)
  | 1, bal, s => generateStep bal s
  | n + 2, bal, s =>
      let r := generateStep bal s
      generateN (n + 1) r.1 r.2.2

/-- The slot originally stored at position `k` of a freshly built
`_balanced` list. -/
def seed (k : Nat) : List Nat := fairCombinations.getD k []

/-- Invariant of the balanced state: 58 slots, each still starting with its
original combination and never longer than a full 9-digit NIF. -/
def Inv (bal : List (List Nat)) : Prop :=
  bal.length = 58 ∧
    ∀ k, k < 58 →
      (bal.getD k []).take (seed k).length = seed k ∧ (bal.getD k []).length ≤ 9

instance : DecidableEq (Except PyError (List Nat)) :=
  fun a b =>
    match a, b with
    | Except.ok x, Except.ok y => decidable_of_iff (x = y) (by simp)
    | Except.error x, Except.error y => decidable_of_iff (x = y) (by simp)
    | Except.ok _, Except.error _ => isFalse (by simp)
    | Except.error _, Except.ok _ => isFalse (by simp)

instance (bal : List (List Nat)) : Decidable (Inv bal) := by
  unfold Inv; infer_instance

/-- Embeds a digit assignment `b[i] = v` performed on `b = Nif(a)`:
`Nif.__init__` stored the instance `a` itself in `b._nif` (src/nif.py
lines 46-47), so the int branch of `b.__setitem__` runs
`a.__setitem__(i, v)` (updating the shared digit list and running
`a.fix_sum()`), and then `b.fix_sum()` performs `self._nif[8:] = [...]` on
the Nif object `a`, whose slice guard `-8 < 8 < 8` fails.  The result is
the final digit list of `a` together with the raised-IndexError flag. -/
def copySetInt (s : List Nat) (i : Int) (v : Nat) : List Nat × Bool :=
  match pyListSet s i v with
  | none => (s, true)
  | some l1 => (fixSum l1, true)

/-- Embeds a digit read `b[i]` on `b = Nif(a)`: `b.__getitem__` returns
`self._nif[item]`, and `self._nif` is the instance `a`, so the read
delegates to the shared digit list of `a`. -/
def copyGet (s : List Nat) (i : Int) : Option Nat := pyListGet s i

end Nif

namespace Nif

/-! Helper lemmas about the embedded Python primitives. -/

/-- A slice index given as a natural number resolves by clamping to the
list length. -/
theorem resolveIdx_natCast (len n : Nat) : resolveIdx len ((n : Nat) : Int) = min n len := by
  have h : ¬(((n : Nat) : Int) < 0) := by omega
  simp [resolveIdx, h]

/-- Slice assignment at the end of the list appends. -/
theorem pySetSlice_length_none (l items : List Nat) :
    pySetSlice l (l.length : Int) none items = l ++ items := by
  simp [pySetSlice, resolveIdx_natCast]

theorem resolveIdx_eight (len : Nat) : resolveIdx len 8 = min 8 len := by
  unfold resolveIdx
  norm_num
  rfl

/-- Slice assignment from position 8 replaces everything from index 8 on. -/
theorem pySetSlice_eight (l : List Nat) (items : List Nat) :
    pySetSlice l (8 : Int) none items = l.take 8 ++ items := by
  show l.take (resolveIdx l.length 8) ++ items ++ l.drop (max (resolveIdx l.length 8) l.length)
      = l.take 8 ++ items
  rw [resolveIdx_eight]
  rcases le_or_lt l.length 8 with h | h
  · rw [Nat.min_eq_right h, Nat.max_self, List.take_length, List.drop_length,
      List.take_of_length_le h, List.append_nil]
  · rw [Nat.min_eq_left (Nat.le_of_lt h), Nat.max_eq_right (Nat.le_of_lt h),
      List.drop_length, List.append_nil]

/-- The shape of `fix_sum`: keep (at most) the first 8 digits and install
the evaluated check digit after them. -/
theorem fixSum_eq (l : List Nat) :
    fixSum l = l.take 8 ++ [evalSum (l.take 8)] := by
  simp [fixSum, baseLength, pySetSlice_eight]

theorem getD_append_length (T r : List Nat) (d : Nat) :
    (T ++ r).getD T.length d = r.getD 0 d := by
  induction T with
  | nil => simp
  | cons a T ih => simpa using ih

/-- `evalSum` only looks at the first 8 elements. -/
theorem evalSum_take (l : List Nat) : evalSum (l.take 8) = evalSum l := by
  simp [evalSum, baseLength, List.take_take]

/-- After `fix_sum` on a list of at least 8 digits, the result has 9 digits
and its 9th digit is `eval_sum` of its base. -/
theorem fixSum_consistent (l : List Nat) (h : 8 ≤ l.length) :
    (fixSum l).length = 9 ∧ (fixSum l).getD 8 0 = evalSum ((fixSum l).take 8) := by
  have hT : (l.take 8).length = 8 := by simp [List.length_take, Nat.min_eq_left h]
  rw [fixSum_eq]
  refine ⟨by simp [hT], ?_⟩
  have h1 : (l.take 8 ++ [evalSum (l.take 8)]).getD 8 0 = evalSum (l.take 8) := by
    have := getD_append_length (l.take 8) [evalSum (l.take 8)] 0
    rw [hT] at this
    simpa using this
  have h2 : (l.take 8 ++ [evalSum (l.take 8)]).take 8 = l.take 8 := by
    have := List.take_left (l.take 8) [evalSum (l.take 8)]
    rwa [hT] at this
  rw [h1, h2]

end Nif

namespace Nif

/-- Claim C1: for every 8-digit base, `eval_checksum` equals the weighted
mod-11 formula: with `a = (sum over i in 0..7 of (9 - i) * base[i]) mod 11`,
the result is 0 if `a < 2` and `11 - a` otherwise; in particular for base
12345678 the weighted sum is 156, 156 mod 11 = 2, and the checksum is 9. -/
theorem evalSum_spec (b : List Nat) (h : b.length = 8) :
    evalSum b =
      (if (∑ i in Finset.range 8, (9 - i) * b.getD i 0) % 11 < 2 then 0
       else 11 - (∑ i in Finset.range 8, (9 - i) * b.getD i 0) % 11) ∧
    evalSum [1, 2, 3, 4, 5, 6, 7, 8] = 9 ∧
    (∑ i in Finset.range 8, (9 - i) * ([1, 2, 3, 4, 5, 6, 7, 8] : List Nat).getD i 0) = 156 ∧
    156 % 11 = 2 := by
  refine ⟨?_, by decide, by decide, by decide⟩
  rcases b with _ | ⟨x0, b⟩; · simp at h
  rcases b with _ | ⟨x1, b⟩; · simp at h
  rcases b with _ | ⟨x2, b⟩; · simp at h
  rcases b with _ | ⟨x3, b⟩; · simp at h
  rcases b with _ | ⟨x4, b⟩; · simp at h
  rcases b with _ | ⟨x5, b⟩; · simp at h
  rcases b with _ | ⟨x6, b⟩; · simp at h
  rcases b with _ | ⟨x7, b⟩; · simp at h
  rcases b with _ | ⟨x8, b⟩
  · have hsum : (enumerate 0 (([x0, x1, x2, x3, x4, x5, x6, x7] : List Nat).take baseLength)).foldl
        (fun x y => x + (9 - y.1) * y.2) 0
        = ∑ i in Finset.range 8, (9 - i) * ([x0, x1, x2, x3, x4, x5, x6, x7] : List Nat).getD i 0 := by
      simp [enumerate, baseLength, Finset.sum_range_succ]
    simp only [evalSum]
    rw [hsum]
  · simp at h

end Nif

namespace Nif

/-- Witness for C1 at the concrete base 12345678. -/
theorem evalSum_spec_witness :
    ([1, 2, 3, 4, 5, 6, 7, 8] : List Nat).length = 8 ∧
    evalSum [1, 2, 3, 4, 5, 6, 7, 8] =
      (if (∑ i in Finset.range 8,
            (9 - i) * ([1, 2, 3, 4, 5, 6, 7, 8] : List Nat).getD i 0) % 11 < 2 then 0
       else 11 - (∑ i in Finset.range 8,
            (9 - i) * ([1, 2, 3, 4, 5, 6, 7, 8] : List Nat).getD i 0) % 11) :=
  ⟨by decide, (evalSum_spec [1, 2, 3, 4, 5, 6, 7, 8] (by decide)).1⟩

/-- Claim C8: `fair_combinations` is, in catalogue order, 10 copies of each
length-1 combination and one copy of each length-2 combination, 58 entries. -/
theorem fairCombinations_spec :
    fairCombinations =
      List.replicate 10 [1] ++ List.replicate 10 [2] ++ List.replicate 10 [5] ++
        List.replicate 10 [6] ++ [[7, 0], [7, 1], [7, 7], [7, 9]] ++
        List.replicate 10 [8] ++ [[9, 0], [9, 1], [9, 8], [9, 9]] ∧
    fairCombinations.length = 58 := by decide

/-- Counterexample to claim C5: the base 99999999 with checksum digit 0 is
accepted by `is_valid` (the string starts with the catalogue entry 99, so
rule 2 passes, and the checksum of 99999999 is 0), contradicting the claim
that `is_valid` is false for every checksum digit. -/
theorem isValid_nines_cex :
    isValid [9, 9, 9, 9, 9, 9, 9, 9, 0] combinations = true ∧
    (toStr [9, 9]).isPrefixOf (toStr [9, 9, 9, 9, 9, 9, 9, 9, 9]) = true ∧
    evalSum [9, 9, 9, 9, 9, 9, 9, 9] = 0 := by decide

/-- Amended claim C5: for base 99999999 the prefix rule passes (the digit
string starts with catalogue entry 99), so `is_valid` holds exactly when
the checksum digit is `eval_checksum(99999999) = 0`: the string 999999999
is invalid, but 999999990 is valid. -/
theorem isValid_nines_iff (d : Nat) (hd : d ≤ 9) :
    isValid ([9, 9, 9, 9, 9, 9, 9, 9] ++ [d]) combinations = decide (d = 0) := by
  interval_cases d <;> decide

/-- Witness for the amended C5 at checksum digit 9 (the spec example). -/
theorem isValid_nines_iff_witness :
    (9 : Nat) ≤ 9 ∧
    isValid ([9, 9, 9, 9, 9, 9, 9, 9] ++ [9]) combinations = decide ((9 : Nat) = 0) :=
  ⟨by decide, isValid_nines_iff 9 (by decide)⟩

/-- Claim C6 fails on the code: one `generate()` call whose prefix draw
picks slot 40 (the catalogue list `[7,0]`) extends that shared list in
place to the full generated NIF, so afterwards `Nif._COMBINATIONS` no
longer equals its initial 13 entries.  Before any call the view does equal
the initial catalogue. -/
theorem combinations_mutated_by_generate :
    catalogueOf fairCombinations = combinations ∧
    catalogueOf (generateStep fairCombinations [40]).1 =
      [[1], [2], [5], [6], [7, 0, 0, 0, 0, 0, 0, 0, 3], [7, 1], [7, 7], [7, 9], [8],
       [9, 0], [9, 1], [9, 8], [9, 9]] ∧
    catalogueOf (generateStep fairCombinations [40]).1 ≠ combinations := by decide

/-- Counterexample to claim C4: a range assignment whose start index is -8
lies inside the interval the claim declares safe, yet the code raises
IndexError (the guard is strict: `-8 < start`); and a single-index
assignment at index -9 on a 9-digit NIF succeeds (Python resolves it to
position 0), although the claim says any index at most -9 must raise. -/
theorem setItem_boundary_cex :
    setItemSlice [1, 2, 3, 4, 5, 6, 7, 8, 9] (-8) none [0, 0, 0, 0, 0, 0, 0, 0] =
      Except.error PyError.indexError ∧
    setItemInt [1, 2, 3, 4, 5, 6, 7, 8, 9] (-9) 5 =
      Except.ok [5, 2, 3, 4, 5, 6, 7, 8, 6] := by decide

/-- Amended claim C4: on a 9-digit NIF, a range assignment raises exactly
when its start index lies outside the open interval (-8, 8), and a
single-index assignment raises exactly when the index lies outside
[-9, 9) (the bounds of the 9-element digit list). -/
theorem setItem_raise_iff (l : List Nat) (h9 : l.length = 9) :
    (∀ (start : Int) (stop : Option Int) (items : List Nat),
        isOkB (setItemSlice l start stop items) = true ↔ (-8 < start ∧ start < 8)) ∧
    (∀ (i : Int) (v : Nat),
        isOkB (setItemInt l i v) = true ↔ (-9 ≤ i ∧ i < 9)) := by
  constructor
  · intro start stop items
    by_cases hc : (-8 : Int) < start ∧ start < 8
    · have : -((baseLength : Nat) : Int) < start ∧ start < ((baseLength : Nat) : Int) := by
        simp only [baseLength]; omega
      simp [setItemSlice, this, isOkB, hc]
    · have : ¬(-((baseLength : Nat) : Int) < start ∧ start < ((baseLength : Nat) : Int)) := by
        simp only [baseLength]; omega
      simp [setItemSlice, this, isOkB, hc]
  · intro i v
    by_cases hc : (-9 : Int) ≤ i ∧ i < 9
    · have : -((l.length : Nat) : Int) ≤ i ∧ i < ((l.length : Nat) : Int) := by
        rw [h9]; omega
      simp [setItemInt, pyListSet, this, isOkB, hc]
    · have : ¬(-((l.length : Nat) : Int) ≤ i ∧ i < ((l.length : Nat) : Int)) := by
        rw [h9]; omega
      simp [setItemInt, pyListSet, this, isOkB, hc]

/-- Witness for the amended C4 on a concrete NIF and index. -/
theorem setItem_raise_iff_witness :
    ([1, 2, 3, 4, 5, 6, 7, 8, 9] : List Nat).length = 9 ∧
    (isOkB (setItemSlice [1, 2, 3, 4, 5, 6, 7, 8, 9] 0 none []) = true ↔
      ((-8 : Int) < 0 ∧ (0 : Int) < 8)) :=
  ⟨by decide, (setItem_raise_iff [1, 2, 3, 4, 5, 6, 7, 8, 9] (by decide)).1 0 none []⟩

end Nif

namespace Nif

theorem pySetSlice_base (l items : List Nat) :
    pySetSlice l ((baseLength : Nat) : Int) none items = l.take 8 ++ items := by
  rw [show ((baseLength : Nat) : Int) = (8 : Int) by simp [baseLength]]
  exact pySetSlice_eight l items

theorem padDraws_length (s : List Nat) (m : Nat) : (padDraws s m).length = m := by
  simp [padDraws]

/-- Claim C3 fails on the code: every padding digit produced by the
`rand(9)` comprehensions is at most 8 — `rand` is `randrange`, whose range
is the half-open interval, so the digit 9 can never be drawn.  The third
conjunct locates the padded region inside a fill-mode construction from a
short digit string. -/
theorem padDraws_never_nine (s : List Nat) (m : Nat) :
    (∀ d ∈ padDraws s m, d ≤ 8) ∧ 9 ∉ padDraws s m ∧
      ∀ ds : List Nat, ds.length < 8 →
        ((fillFrom ds s).take 8).drop ds.length = padDraws s (8 - ds.length) := by
  have hmem : ∀ d ∈ padDraws s m, d ≤ 8 := by
    intro d hd
    simp only [padDraws, List.mem_map, List.mem_range] at hd
    obtain ⟨i, _, hi⟩ := hd
    omega
  refine ⟨hmem, fun h9 => absurd (hmem 9 h9) (by omega), ?_⟩
  intro ds hlt
  have hpadlen : (padDraws s (8 - ds.length)).length = 8 - ds.length := padDraws_length _ _
  have hfill : fillFrom ds s =
      (ds ++ padDraws s (8 - ds.length)) ++
        [evalSum ((ds ++ padDraws s (8 - ds.length)).take baseLength)] := by
    have h1 : (ds ++ padDraws s (8 - ds.length)).length = 8 := by
      simp [hpadlen]; omega
    simp only [fillFrom]
    rw [if_pos hlt, if_pos (show ds.length < 9 by omega), pySetSlice_length_none,
      pySetSlice_base, List.take_of_length_le (by omega)]
  have h1 : (ds ++ padDraws s (8 - ds.length)).length = 8 := by
    simp [hpadlen]; omega
  rw [hfill, List.take_left' h1, List.drop_left' rfl]

/-- Witness for C3 at a concrete stream and fill input. -/
theorem padDraws_never_nine_witness :
    ((5 : Nat) ∈ padDraws [5] 3 ∧ (5 : Nat) ≤ 8) ∧
    9 ∉ padDraws [5] 3 ∧
    (([1] : List Nat).length < 8 ∧
      ((fillFrom [1] [5]).take 8).drop ([1] : List Nat).length = padDraws [5] 7) :=
  ⟨⟨by decide, (padDraws_never_nine [5] 3).1 5 (by decide)⟩,
    (padDraws_never_nine [5] 3).2.1,
    by decide, (padDraws_never_nine [5] 3).2.2 [1] (by decide)⟩

/-- Counterexample to claim C7: the range assignment `nif[0:8] = [1]` on
the 9-digit NIF 123456789 starts inside the base, succeeds, and leaves the
instance with only 3 digits — there is no stored 9th digit at all
afterwards, so the instance is not a consistent 9-digit NIF. -/
theorem setItem_shrink_cex :
    setItemSlice [1, 2, 3, 4, 5, 6, 7, 8, 9] 0 (some 8) [1] = Except.ok [1, 9, 7] ∧
    ([1, 9, 7] : List Nat).length = 3 ∧ ([1, 9, 7] : List Nat)[8]? = none := by decide

/-- Amended claim C7: a successful single-index assignment on a 9-digit NIF
always leaves 9 digits whose 9th digit is `eval_checksum` of the updated
base; a successful range assignment leaves the digits of the raw assigned
list truncated to 8 followed by their `eval_checksum`, and whenever the raw
assigned list still has at least 8 digits (so for every size-preserving
range assignment) the result is again a consistent 9-digit NIF. -/
theorem setItem_consistency (l : List Nat) (h9 : l.length = 9) :
    (∀ (i : Int) (v : Nat) (r : List Nat), setItemInt l i v = Except.ok r →
        r.length = 9 ∧ r.getD 8 0 = evalSum (r.take 8)) ∧
    (∀ (start : Int) (stop : Option Int) (items r : List Nat),
        setItemSlice l start stop items = Except.ok r →
        r = (pySetSlice l start stop items).take 8 ++
              [evalSum ((pySetSlice l start stop items).take 8)] ∧
        (8 ≤ (pySetSlice l start stop items).length →
          r.length = 9 ∧ r.getD 8 0 = evalSum (r.take 8))) := by
  constructor
  · intro i v r hr
    rcases hps : pyListSet l i v with _ | l1
    · rw [setItemInt, hps] at hr; exact absurd hr (by simp)
    · rw [setItemInt, hps] at hr
      have hr1 : r = fixSum l1 := by
        cases hr; rfl
      have hl1 : l1.length = 9 := by
        unfold pyListSet at hps
        split at hps
        · cases hps; simp [h9]
        · exact absurd hps (by simp)
      rw [hr1]
      exact fixSum_consistent l1 (by omega)
  · intro start stop items r hr
    unfold setItemSlice at hr
    split at hr
    · have hr1 : r = fixSum (pySetSlice l start stop items) := by
        cases hr; rfl
      constructor
      · rw [hr1, fixSum_eq]
      · intro hlen
        rw [hr1]
        exact fixSum_consistent _ hlen
    · exact absurd hr (by simp)

/-- Witness for the amended C7: assigning 5 at index 0 of 123456789. -/
theorem setItem_consistency_witness :
    ([1, 2, 3, 4, 5, 6, 7, 8, 9] : List Nat).length = 9 ∧
    setItemInt [1, 2, 3, 4, 5, 6, 7, 8, 9] 0 5 = Except.ok [5, 2, 3, 4, 5, 6, 7, 8, 6] ∧
    (([5, 2, 3, 4, 5, 6, 7, 8, 6] : List Nat).length = 9 ∧
      ([5, 2, 3, 4, 5, 6, 7, 8, 6] : List Nat).getD 8 0 =
        evalSum (([5, 2, 3, 4, 5, 6, 7, 8, 6] : List Nat).take 8)) :=
  ⟨by decide, by decide,
    (setItem_consistency [1, 2, 3, 4, 5, 6, 7, 8, 9] (by decide)).1 0 5
      [5, 2, 3, 4, 5, 6, 7, 8, 6] (by decide)⟩

theorem pyStr_digit (d : Nat) (hd : d ≤ 9) : pyStr d = [48 + d] := by
  have h : d < 10 := by omega
  simp [pyStr, pyStrCore, h]

theorem toStr_digits (nif : List Nat) (hd : ∀ d ∈ nif, d ≤ 9) :
    toStr nif = nif.map (fun d => 48 + d) := by
  induction nif with
  | nil => simp [toStr]
  | cons a t ih =>
    have ha : a ≤ 9 := hd a (by simp)
    have ht : ∀ d ∈ t, d ≤ 9 := fun d hdm => hd d (by simp [hdm])
    simp only [toStr, List.map_cons, List.flatten_cons] at *
    rw [pyStr_digit a ha, ih ht]
    rfl

/-- Claim C9: reconstructing a valid NIF (9 digits, each 0-9) from its
string representation with fill disabled restores exactly the same digits,
and the reconstruction is still valid. -/
theorem roundtrip_valid (nif : List Nat) (hd : ∀ d ∈ nif, d ≤ 9)
    (hv : isValid nif combinations = true) :
    fromString (toStr nif) = nif ∧
    isValid (fromString (toStr nif)) combinations = true := by
  have ht : fromString (toStr nif) = nif := by
    rw [toStr_digits nif hd, fromString, List.map_map]
    have h1 : ∀ d ∈ nif, (charDigit ∘ fun d => 48 + d) d = d := by
      intro d _; simp [charDigit]
    rw [List.map_congr_left h1]
    exact List.map_id' nif
  exact ⟨ht, by rw [ht]; exact hv⟩

/-- Witness for C9 at the concrete valid NIF 123456789. -/
theorem roundtrip_valid_witness :
    isValid [1, 2, 3, 4, 5, 6, 7, 8, 9] combinations = true ∧
    (fromString (toStr [1, 2, 3, 4, 5, 6, 7, 8, 9]) = [1, 2, 3, 4, 5, 6, 7, 8, 9] ∧
      isValid (fromString (toStr [1, 2, 3, 4, 5, 6, 7, 8, 9])) combinations = true) :=
  ⟨by decide, roundtrip_valid [1, 2, 3, 4, 5, 6, 7, 8, 9] (by decide) (by decide)⟩

/-- Claim C10: `Nif(a)` stores the instance `a` itself, so a digit
assignment through the copy `b` writes into the digits of `a` (the write
itself and the triggered `a.fix_sum` both land in the shared list; the
trailing `b.fix_sum` then raises IndexError, after the mutation stuck), and
reads through `b` see the digits of `a`. -/
theorem copy_write_aliases (s : List Nat) (i : Int) (v : Nat) (h9 : s.length = 9)
    (hi : -9 ≤ i ∧ i < 9) :
    (copySetInt s i v).1 = fixSum (s.set (if i < 0 then (i + 9).toNat else i.toNat) v) ∧
    (copySetInt s i v).2 = true ∧
    (∀ j : Int, copyGet (copySetInt s i v).1 j = pyListGet (copySetInt s i v).1 j) ∧
    (copySetInt [1, 2, 3, 4, 5, 6, 7, 8, 9] 0 5).1 ≠ [1, 2, 3, 4, 5, 6, 7, 8, 9] := by
  have hcond : -((s.length : Nat) : Int) ≤ i ∧ i < ((s.length : Nat) : Int) := by
    rw [h9]; exact ⟨by omega, by omega⟩
  have hset : pyListSet s i v =
      some (s.set (if i < 0 then (i + s.length).toNat else i.toNat) v) := by
    simp [pyListSet, hcond]
  refine ⟨?_, ?_, fun j => rfl, by decide⟩
  · simp only [copySetInt, hset, h9]
    norm_num
  · simp only [copySetInt, hset]

/-- Witness for C10 at the concrete copy write `b[0] = 5`. -/
theorem copy_write_aliases_witness :
    ([1, 2, 3, 4, 5, 6, 7, 8, 9] : List Nat).length = 9 ∧
    ((-9 : Int) ≤ 0 ∧ (0 : Int) < 9) ∧
    (copySetInt [1, 2, 3, 4, 5, 6, 7, 8, 9] 0 5).2 = true :=
  ⟨by decide, ⟨by decide, by decide⟩,
    (copy_write_aliases [1, 2, 3, 4, 5, 6, 7, 8, 9] 0 5 (by decide) ⟨by decide, by decide⟩).2.1⟩

end Nif

namespace Nif

theorem getD_set_self (l : List (List Nat)) (i : Nat) (a : List Nat) (h : i < l.length) :
    (l.set i a).getD i [] = a := by
  rw [List.getD_eq_getElem _ _ (by simp [h]), List.getElem_set_self]

theorem getD_set_ne (l : List (List Nat)) {i j : Nat} (a : List Nat) (h : i ≠ j) :
    (l.set i a).getD j [] = l.getD j [] := by
  simp [List.getD, List.getElem?_set_ne h]

theorem isPrefixOf_self (l : List Nat) : l.isPrefixOf l = true := by
  induction l with
  | nil => rfl
  | cons a t ih => simp [List.isPrefixOf, ih]

theorem toStr_cons (a : Nat) (l : List Nat) : toStr (a :: l) = pyStr a ++ toStr l := by
  simp [toStr]

theorem foldl_or_any (combs : List (List Nat)) (g : List Nat → Bool) (b : Bool) :
    combs.foldl (fun x y => x || g y) b = (b || combs.any g) := by
  induction combs generalizing b with
  | nil => simp
  | cons c t ih => rw [List.foldl_cons, ih, List.any_cons, Bool.or_assoc]

theorem take_one_eq (l : List Nat) (d : Nat) (h : l.take 1 = [d]) : ∃ t, l = d :: t := by
  cases l with
  | nil => simp at h
  | cons a t =>
    simp at h
    exact ⟨t, by rw [h]⟩

theorem seed_facts : ∀ k, k < 58 → 1 ≤ (seed k).length ∧ (seed k).length ≤ 2 := by decide

theorem seed_single : ∀ k, k < 58 → (seed k).length = 1 →
    seed k = [1] ∨ seed k = [2] ∨ seed k = [5] ∨ seed k = [6] ∨ seed k = [8] := by decide

theorem seed_double : ∀ k, k < 58 → (seed k).length = 2 →
    k = 40 ∨ k = 41 ∨ k = 42 ∨ k = 43 ∨ k = 54 ∨ k = 55 ∨ k = 56 ∨ k = 57 := by decide

theorem aliased_slot_mem : ∀ j : Nat,
    j = 40 ∨ j = 41 ∨ j = 42 ∨ j = 43 ∨ j = 54 ∨ j = 55 ∨ j = 56 ∨ j = 57 →
    ∀ bal2 : List (List Nat), bal2.getD j [] ∈ catalogueOf bal2 := by
  intro j hj bal2
  rcases hj with h | h | h | h | h | h | h | h <;> subst h <;> simp [catalogueOf]

/-- Core of the generation argument: updating slot `k` of a state
satisfying the invariant with the generated digits preserves the invariant,
and the generated digits validate against the resulting catalogue view. -/
theorem step_core (bal : List (List Nat)) (k : Nat) (ds : List Nat)
    (hlen : bal.length = 58)
    (hslots : ∀ j, j < 58 →
      (bal.getD j []).take (seed j).length = seed j ∧ (bal.getD j []).length ≤ 9)
    (hk : k < 58)
    (hds : ds.length = 8 - (bal.getD k []).length) :
    Inv (bal.set k ((bal.getD k [] ++ ds).take 8 ++ [evalSum (bal.getD k [] ++ ds)])) ∧
    isValid ((bal.getD k [] ++ ds).take 8 ++ [evalSum (bal.getD k [] ++ ds)])
      (catalogueOf
        (bal.set k ((bal.getD k [] ++ ds).take 8 ++ [evalSum (bal.getD k [] ++ ds)]))) =
      true := by
  obtain ⟨hpre, hle9⟩ := hslots k hk
  set nif0 := bal.getD k [] with hnif0
  set nif1 := nif0 ++ ds with hnif1
  set nif2 := nif1.take 8 ++ [evalSum nif1] with hnif2
  have hseed : 1 ≤ (seed k).length ∧ (seed k).length ≤ 2 := seed_facts k hk
  have hpl : (seed k).length ≤ nif0.length := by
    have hlt := congrArg List.length hpre
    simp only [List.length_take] at hlt
    omega
  have h0pos : 1 ≤ nif0.length := le_trans hseed.1 hpl
  have h1len : nif1.length = nif0.length + ds.length := by simp [hnif1]
  have h8 : 8 ≤ nif1.length := by omega
  have hT : (nif1.take 8).length = 8 := by
    simp only [List.length_take]
    omega
  have h2len : nif2.length = 9 := by simp [hnif2, hT]
  have e1 : nif2.take 8 = nif1.take 8 := by
    rw [hnif2]; exact List.take_left' hT
  have e2 : nif2.getD 8 0 = evalSum nif1 := by
    rw [hnif2]
    have hg := getD_append_length (nif1.take 8) [evalSum nif1] 0
    rw [hT] at hg
    simpa using hg
  have hr3 : nif2.getD 8 0 = evalSum (nif2.take 8) := by
    rw [e2, e1, evalSum_take]
  have hpre2 : nif2.take (seed k).length = seed k := by
    rw [hnif2, List.take_append_of_le_length (by omega : (seed k).length ≤ (nif1.take 8).length),
      List.take_take, Nat.min_eq_left (by omega), hnif1,
      List.take_append_of_le_length hpl, hpre]
  have hInv : Inv (bal.set k nif2) := by
    refine ⟨by simp [hlen], ?_⟩
    intro j hj
    by_cases hjk : k = j
    · subst hjk
      rw [getD_set_self bal k nif2 (by omega)]
      exact ⟨hpre2, by omega⟩
    · rw [getD_set_ne bal nif2 hjk]
      exact hslots j hj
  have hcomb : ∃ c, c ∈ catalogueOf (bal.set k nif2) ∧
      (toStr c).isPrefixOf (toStr nif2) = true := by
    have hcase : (seed k).length = 1 ∨ (seed k).length = 2 := by omega
    rcases hcase with hone | htwo
    · have hget : ∃ d, seed k = [d] ∧ d ≤ 9 ∧ [d] ∈ catalogueOf (bal.set k nif2) := by
        rcases seed_single k hk hone with h | h | h | h | h <;>
          exact ⟨_, h, by decide, by simp [catalogueOf]⟩
      obtain ⟨d, hs, hd9, hdmem⟩ := hget
      have hp1 : nif0.take 1 = [d] := by
        have hp0 := hpre
        rw [hs] at hp0
        simpa using hp0
      obtain ⟨t, ht0⟩ := take_one_eq nif0 d hp1
      have hn2 : nif2 = d :: ((t ++ ds).take 7 ++ [evalSum (d :: (t ++ ds))]) := by
        rw [hnif2, hnif1, ht0]
        rfl
      refine ⟨[d], hdmem, ?_⟩
      have hc1 : toStr [d] = [48 + d] := by
        simp [toStr, pyStr_digit d hd9]
      rw [hc1, hn2, toStr_cons, pyStr_digit d hd9]
      simp [List.isPrefixOf]
    · have hgd : (bal.set k nif2).getD k [] = nif2 := getD_set_self bal k nif2 (by omega)
      have hm := aliased_slot_mem k (seed_double k hk htwo) (bal.set k nif2)
      rw [hgd] at hm
      exact ⟨nif2, hm, isPrefixOf_self (toStr nif2)⟩
  obtain ⟨c, hcmem, hcpre⟩ := hcomb
  refine ⟨hInv, ?_⟩
  simp only [isValid, Bool.and_eq_true]
  refine ⟨⟨?_, ?_⟩, ?_⟩
  · simp [h2len, baseLength]
  · rw [foldl_or_any]
    simp only [Bool.false_or, List.any_eq_true]
    exact ⟨c, hcmem, hcpre⟩
  · simp only [beq_iff_eq]
    exact hr3

end Nif

namespace Nif

/-- One `generate()` call on a state satisfying the invariant preserves the
invariant and returns digits that validate against the resulting catalogue
view. -/
theorem generateStep_ok (bal : List (List Nat)) (s : List Nat) (h : Inv bal) :
    Inv (generateStep bal s).1 ∧
      isValid (generateStep bal s).2.1 (catalogueOf (generateStep bal s).1) = true := by
  obtain ⟨hlen, hslots⟩ := h
  have hk : s.headD 0 % bal.length < 58 := by
    rw [hlen]
    exact Nat.mod_lt _ (by norm_num)
  have hds : (padDraws s.tail
        (baseLength - (bal.getD (s.headD 0 % bal.length) []).length)).length
      = 8 - (bal.getD (s.headD 0 % bal.length) []).length := by
    rw [padDraws_length]
    rfl
  have hstep : generateStep bal s =
      (bal.set (s.headD 0 % bal.length)
        ((bal.getD (s.headD 0 % bal.length) [] ++
            padDraws s.tail
              (baseLength - (bal.getD (s.headD 0 % bal.length) []).length)).take 8 ++
          [evalSum (bal.getD (s.headD 0 % bal.length) [] ++
            padDraws s.tail
              (baseLength - (bal.getD (s.headD 0 % bal.length) []).length))]),
        (bal.getD (s.headD 0 % bal.length) [] ++
            padDraws s.tail
              (baseLength - (bal.getD (s.headD 0 % bal.length) []).length)).take 8 ++
          [evalSum (bal.getD (s.headD 0 % bal.length) [] ++
            padDraws s.tail
              (baseLength - (bal.getD (s.headD 0 % bal.length) []).length))],
        s.tail.drop (baseLength - (bal.getD (s.headD 0 % bal.length) []).length)) := by
    simp only [generateStep]
    rw [pySetSlice_length_none, pySetSlice_base]
  rw [hstep]
  exact step_core bal (s.headD 0 % bal.length) _ hlen hslots hk hds

theorem generateN_ok : ∀ n : Nat, 1 ≤ n → ∀ (bal : List (List Nat)) (s : List Nat), Inv bal →
    Inv (generateN n bal s).1 ∧
      isValid (generateN n bal s).2.1 (catalogueOf (generateN n bal s).1) = true := by
  intro n
  induction n with
  | zero => omega
  | succ n ih =>
    intro _ bal s hInv
    cases n with
    | zero =>
      show Inv (generateStep bal s).1 ∧ _
      exact generateStep_ok bal s hInv
    | succ m =>
      have hs := generateStep_ok bal s hInv
      have hrec := ih (by omega) (generateStep bal s).1 (generateStep bal s).2.2 hs.1
      show Inv (generateN (m + 1) (generateStep bal s).1 (generateStep bal s).2.2).1 ∧ _
      exact hrec

/-- Claim C2: every NIF returned by `generate()` — for every number of
preceding `generate()` calls on the instance and every sequence of random
draws — satisfies `is_valid` against the catalogue as it stands after the
call. -/
theorem generate_isValid (n : Nat) (s : List Nat) (hn : 1 ≤ n) :
    isValid (generateN n fairCombinations s).2.1
      (catalogueOf (generateN n fairCombinations s).1) = true :=
  (generateN_ok n hn fairCombinations s (by decide)).2

/-- Witness for C2: the first generated NIF with an all-zero draw stream. -/
theorem generate_isValid_witness :
    (1 : Nat) ≤ 1 ∧
    isValid (generateN 1 fairCombinations []).2.1
      (catalogueOf (generateN 1 fairCombinations []).1) = true :=
  ⟨by decide, generate_isValid 1 [] (by decide)⟩

end Nif
